import Mathlib

/-
Shallow embedding of mini-redis `src/cmd/del.rs` (the `Del` command) together
with the external collaborators it uses: the Wire Value (`Frame`), the
Argument Cursor (`Parse`), the Store (`Db`) and the Channel (`Connection`).
The `Del` definitions are translated from the source file; the collaborators,
whose code is not part of the visible sources, are modelled from the spec.
-/

/-- Wire Value: a tagged union of protocol values (spec §2/§3).  The integer
variant carries the removal count (a `u64` in the source, modelled as `Nat`;
every count produced here is bounded by a key-list length, so no wraparound
can occur). -/
inductive Frame where
  | Simple (s : String)
  | ErrorMsg (s : String)
  | Integer (n : Nat)
  | Bulk (s : String)
  | Null
  | Array (elems : List Frame)

/-- Outcomes of the cursor's read, spec §4.1: `Exhausted` (`EndOfStream` in the
source) is the terminal condition; `Malformed` means the element exists but is
not string-coercible. -/
inductive ParseError where
  | EndOfStream
  | Malformed
  deriving DecidableEq

/-- Modelled from the spec: the Argument Cursor coerces the next element to a
string when it is string-coercible (a simple-status or bulk-string Wire
Value); other wire types are not string-coercible. -/
def coerceString : Frame → Option String
  | Frame.Simple s => some s
  | Frame.Bulk s => some s
  | _ => none

/-- Modelled from the spec: `read_next_string` on the Argument Cursor
(`Parse::next_string` in the repository).  The cursor is the list of
remaining elements of the array Wire Value; consuming advances by one.
Signals `Exhausted` when no elements remain and `Malformed` when the next
element is not string-coercible (spec §4.1). -/
def nextString : List Frame → Except ParseError (String × List Frame)
  | [] => Except.error ParseError.EndOfStream
  | f :: rest =>
    match coerceString f with
    | some s => Except.ok (s, rest)
    | none => Except.error ParseError.Malformed

/-- The `Del` command: owns an ordered sequence of key strings
(`struct Del { keys: Vec<String> }`). -/
structure Del where
  keys : List String
  deriving DecidableEq

/-- `Del::new`: create a new `Del` command which deletes `keys`. -/
def Del.new (keys : List String) : Del := ⟨keys⟩

/-- The `loop` inside `Del::parse_frames`: repeatedly read additional keys,
pushing each onto the accumulated list; `EndOfStream` breaks the loop
successfully, any other parse error aborts.  (Reading from an empty cursor is
exactly the `EndOfStream` case of `nextString`.) -/
def Del.parseLoop : List Frame → List String → Except ParseError (List String)
  | [], keys => Except.ok keys
  | f :: rest, keys =>
    match coerceString f with
    | some s => Del.parseLoop rest (keys ++ [s])
    | none => Except.error ParseError.Malformed

/-- `Del::parse_frames`: read one key unconditionally, then loop over the
remaining arguments. -/
def Del.parse_frames (frames : List Frame) : Except ParseError Del :=
  match nextString frames with
  | Except.error e => Except.error e
  | Except.ok (key, rest) =>
    match Del.parseLoop rest [key] with
    | Except.error e => Except.error e
    | Except.ok keys => Except.ok ⟨keys⟩

/-- Modelled from the spec: the dispatcher reads the command-name element
once and strips it from the cursor before handing the remaining cursor to
the variant-specific decoder (spec §2, §9). -/
def decodeDel (frames : List Frame) : Except ParseError Del :=
  match nextString frames with
  | Except.error e => Except.error e
  | Except.ok (name, rest) =>
    if name = "del" then Del.parse_frames rest
    else Except.error ParseError.Malformed

/-- The Store, modelled from the spec: a key-value map, here an association
list from key strings to value strings. -/
abbrev Db := List (String × String)

/-- Modelled from the spec: the Store's deletion primitive
`remove(key) → bool`, true iff the key existed and was removed (spec §6).
Returns the flag together with the post-call store. -/
def Db.del (db : Db) (key : String) : Bool × Db :=
  (db.any (fun p => p.1 == key), db.filter (fun p => p.1 != key))

/-- Error raised by a failing Channel write (spec §6/§7). -/
inductive IOErr where
  | ioErr
  deriving DecidableEq

/-- The Channel, modelled from the spec: an ordered sink of Wire Values.
`written` is the sequence already delivered; `failNext` models an I/O failure
of the next write (spec §6). -/
structure Connection where
  written : List Frame
  failNext : Bool

/-- Modelled from the spec: `writeValue(value) → Result<unit, IOError>`,
delivering values in submission order; a failing write delivers nothing. -/
def Connection.write_frame (dst : Connection) (f : Frame) : Except IOErr Connection :=
  if dst.failNext then Except.error IOErr.ioErr
  else Except.ok ⟨dst.written ++ [f], dst.failNext⟩

/-- The `for key in self.keys.iter()` loop of `Del::apply`: thread the store
through successive `db.del(key)` calls, incrementing `count` on each `true`
return. -/
def Del.delLoop : List String → Db → Nat → Nat × Db
  | [], db, count => (count, db)
  | key :: rest, db, count =>
    let r := Db.del db key
    Del.delLoop rest r.2 (if r.1 then count + 1 else count)

/-- Instrumentation of the same loop: the sequence of `db.del` invocations it
performs, as (key, returned flag) pairs, in call order. -/
def Del.delTrace : List String → Db → List (String × Bool)
  | [], _ => []
  | key :: rest, db =>
    let r := Db.del db key
    (key, r.1) :: Del.delTrace rest r.2

/-- `Del::apply`: run the deletion loop, build the `Frame::Integer(count)`
response and write it to the connection.  The store is mutated in place in
the source, so the post-loop store is returned whether or not the write
succeeds. -/
def Del.apply (cmd : Del) (db : Db) (dst : Connection) :
    Except IOErr Unit × Db × Connection :=
  let r := Del.delLoop cmd.keys db 0
  let response := Frame.Integer r.1
  match Connection.write_frame dst response with
  | Except.ok dst2 => (Except.ok (), r.2, dst2)
  | Except.error e => (Except.error e, r.2, dst)

/-- `Frame::array()`: an empty array Wire Value (modelled from the spec:
encoding starts from an empty array). -/
def Frame.arrayNew : Frame := Frame.Array []

/-- Modelled from the spec: `push_bulk` appends a bulk-string element to an
Array Wire Value (only ever called on arrays in this command; on any other
variant it is a no-op here, where the source would panic). -/
def Frame.push_bulk (f : Frame) (s : String) : Frame :=
  match f with
  | Frame.Array l => Frame.Array (l ++ [Frame.Bulk s])
  | other => other

/-- `Del::into_frame`: an array starting with the bulk string "del" followed
by one bulk string per key, pushed in order. -/
def Del.into_frame (cmd : Del) : Frame :=
  let frame := Frame.arrayNew
  let frame := frame.push_bulk "del"
  cmd.keys.foldl (fun fr key => fr.push_bulk key) frame

/-- The element list of an array Wire Value: what an Argument Cursor over the
value reads. -/
def Frame.elems : Frame → List Frame
  | Frame.Array l => l
  | _ => []

/-! ## Helper lemmas -/

/-- Folding `push_bulk` over an array appends the keys as bulk strings. -/
theorem foldl_push_bulk (ks : List String) (l : List Frame) :
    ks.foldl (fun fr key => fr.push_bulk key) (Frame.Array l)
      = Frame.Array (l ++ ks.map Frame.Bulk) := by
  induction ks generalizing l with
  | nil => simp
  | cons k ks ih =>
      rw [List.foldl_cons]
      have hp : (Frame.Array l).push_bulk k = Frame.Array (l ++ [Frame.Bulk k]) := rfl
      rw [hp, ih]
      simp

/-- Closed form of `Del.into_frame`. -/
theorem into_frame_eq (cmd : Del) :
    Del.into_frame cmd = Frame.Array (Frame.Bulk "del" :: cmd.keys.map Frame.Bulk) := by
  simpa [Del.into_frame, Frame.arrayNew, Frame.push_bulk] using
    foldl_push_bulk cmd.keys [Frame.Bulk "del"]

/-- The parse loop over a list of bulk-string frames reads them all. -/
theorem parseLoop_bulk (ks : List String) (acc : List String) :
    Del.parseLoop (ks.map Frame.Bulk) acc = Except.ok (acc ++ ks) := by
  induction ks generalizing acc with
  | nil => simp [Del.parseLoop]
  | cons k ks ih => simp [Del.parseLoop, coerceString, ih]

/-- A successful parse loop only extends the accumulated key list. -/
theorem parseLoop_ok_extends (frames : List Frame) (acc keys : List String)
    (h : Del.parseLoop frames acc = Except.ok keys) : ∃ t, keys = acc ++ t := by
  induction frames generalizing acc with
  | nil =>
      refine ⟨[], ?_⟩
      simp [Del.parseLoop] at h
      simp [h.symm]
  | cons f rest ih =>
      rw [Del.parseLoop] at h
      cases hc : coerceString f with
      | some s =>
          rw [hc] at h
          obtain ⟨t, ht⟩ := ih (acc ++ [s]) h
          exact ⟨s :: t, by simp [ht]⟩
      | none => rw [hc] at h; cases h

/-- The parse loop aborts with `Malformed` whenever a non-string-coercible
element remains. -/
theorem parseLoop_malformed (frames : List Frame) (acc : List String)
    (h : ∃ f ∈ frames, coerceString f = none) :
    Del.parseLoop frames acc = Except.error ParseError.Malformed := by
  induction frames generalizing acc with
  | nil => simp at h
  | cons f rest ih =>
      rw [Del.parseLoop]
      cases hc : coerceString f with
      | some s =>
          obtain ⟨g, hg, hgc⟩ := h
          rcases List.mem_cons.mp hg with hgf | hgr
          · subst hgf; rw [hc] at hgc; cases hgc
          · exact ih (acc ++ [s]) ⟨g, hgr, hgc⟩
      | none => rfl

/-- `parse_frames` fails with `Malformed` whenever the argument list contains
a non-string-coercible element (at any position). -/
theorem parse_frames_malformed (frames : List Frame)
    (h : ∃ f ∈ frames, coerceString f = none) :
    Del.parse_frames frames = Except.error ParseError.Malformed := by
  cases frames with
  | nil => simp at h
  | cons f rest =>
      rw [Del.parse_frames, nextString]
      cases hc : coerceString f with
      | some s =>
          obtain ⟨g, hg, hgc⟩ := h
          rcases List.mem_cons.mp hg with hgf | hgr
          · subst hgf; rw [hc] at hgc; cases hgc
          · show (match Del.parseLoop rest [s] with
              | Except.error e => Except.error e
              | Except.ok keys => Except.ok (Del.mk keys))
              = Except.error ParseError.Malformed
            rw [parseLoop_malformed rest [s] ⟨g, hgr, hgc⟩]
      | none => rfl

/-- The deletion trace visits exactly the command's keys, in order: one
`db.del` invocation per key. -/
theorem delTrace_map_fst (ks : List String) (db : Db) :
    (Del.delTrace ks db).map Prod.fst = ks := by
  induction ks generalizing db with
  | nil => rfl
  | cons k rest ih => simp [Del.delTrace, ih]

/-- The loop's count is the initial count plus the number of `db.del`
invocations that returned `true`. -/
theorem delLoop_count (ks : List String) (db : Db) (c : Nat) :
    (Del.delLoop ks db c).1 = c + ((Del.delTrace ks db).filter Prod.snd).length := by
  induction ks generalizing db c with
  | nil => simp [Del.delLoop, Del.delTrace]
  | cons k rest ih =>
      rw [Del.delLoop, Del.delTrace]
      rw [ih]
      cases hb : (Db.del db k).1
      all_goals simp [List.filter_cons, hb]
      all_goals omega

/-- The loop's final store does not depend on the running count. -/
theorem delLoop_db_const (ks : List String) (db : Db) (c c' : Nat) :
    (Del.delLoop ks db c).2 = (Del.delLoop ks db c').2 := by
  induction ks generalizing db c c' with
  | nil => rfl
  | cons k rest ih => rw [Del.delLoop, Del.delLoop]; exact ih _ _ _

/-- Store membership after the loop: an entry survives iff it was present
before and its key is not in the key list (so keys outside the list are
untouched, and every key in the list is absent afterwards). -/
theorem mem_delLoop_db (ks : List String) (db : Db) (c : Nat) (k v : String) :
    (k, v) ∈ (Del.delLoop ks db c).2 ↔ (k, v) ∈ db ∧ k ∉ ks := by
  induction ks generalizing db c with
  | nil => simp [Del.delLoop]
  | cons key rest ih =>
      rw [Del.delLoop]
      rw [ih]
      show (k, v) ∈ (Db.del db key).2 ∧ k ∉ rest ↔ _
      rw [Db.del]
      simp only [List.mem_filter, List.mem_cons, bne_iff_ne, ne_eq]
      constructor
      · rintro ⟨⟨hm, hne⟩, hnr⟩
        exact ⟨hm, by rintro (h | h) <;> [exact hne h; exact hnr h]⟩
      · rintro ⟨hm, hnotin⟩
        exact ⟨⟨hm, fun h => hnotin (Or.inl h)⟩, fun h => hnotin (Or.inr h)⟩

/-- When every key in the list is absent from the store, the loop is the
identity: count unchanged, store unchanged. -/
theorem delLoop_absent (ks : List String) (db : Db) (c : Nat)
    (h : ∀ k ∈ ks, db.any (fun p => p.1 == k) = false) :
    Del.delLoop ks db c = (c, db) := by
  induction ks generalizing c with
  | nil => rfl
  | cons key rest ih =>
      have hany : db.any (fun p => p.1 == key) = false := h key (List.mem_cons_self _ _)
      have hfilter : db.filter (fun p => p.1 != key) = db := by
        rw [List.filter_eq_self]
        intro p hp
        have := (List.any_eq_false.mp hany) p hp
        simpa [bne] using this
      rw [Del.delLoop]
      show Del.delLoop rest (Db.del db key).2
          (if (Db.del db key).1 then c + 1 else c) = (c, db)
      rw [Db.del] at *
      simp only [hany, hfilter, if_false, Bool.false_eq_true]
      exact ih c (fun k hk => h k (List.mem_cons_of_mem _ hk))

/-- The trace has one entry per key. -/
theorem delTrace_length (ks : List String) (db : Db) :
    (Del.delTrace ks db).length = ks.length := by
  have := delTrace_map_fst ks db
  calc (Del.delTrace ks db).length
      = ((Del.delTrace ks db).map Prod.fst).length := (List.length_map _ _).symm
    _ = ks.length := by rw [this]

/-- The removal count is at most the number of keys. -/
theorem delLoop_count_le (ks : List String) (db : Db) :
    (Del.delLoop ks db 0).1 ≤ ks.length := by
  rw [delLoop_count]
  calc 0 + ((Del.delTrace ks db).filter Prod.snd).length
      = ((Del.delTrace ks db).filter Prod.snd).length := Nat.zero_add _
    _ ≤ (Del.delTrace ks db).length := List.length_filter_le _ _
    _ = ks.length := delTrace_length ks db

/-- `Del::apply` when all keys are absent: reply Integer(0), store unchanged,
write succeeds. -/
theorem apply_of_absent (cmd : Del) (db : Db) (w : List Frame)
    (h : ∀ k ∈ cmd.keys, db.any (fun p => p.1 == k) = false) :
    Del.apply cmd db ⟨w, false⟩
      = (Except.ok (), db, ⟨w ++ [Frame.Integer 0], false⟩) := by
  rw [Del.apply]
  simp only [delLoop_absent cmd.keys db 0 h]
  rfl

/-! ## Claim theorems -/

/-- C1: round-trip fidelity of the encode/decode pair: for every non-empty
key list K, decoding a cursor over the encoding of K yields a Del command
whose key list is exactly K, in order; conversely, encoding the command
decoded from a cursor over ["del","a","b"] reproduces that same array Wire
Value. -/
theorem del_roundtrip (K : List String) (h : K ≠ []) :
    decodeDel (Frame.elems (Del.into_frame (Del.new K))) = Except.ok (Del.new K)
    ∧ decodeDel [Frame.Bulk "del", Frame.Bulk "a", Frame.Bulk "b"]
        = Except.ok (Del.new ["a", "b"])
    ∧ Del.into_frame (Del.new ["a", "b"])
        = Frame.Array [Frame.Bulk "del", Frame.Bulk "a", Frame.Bulk "b"] := by
  have hparse : ∀ (k : String) (ks : List String),
      Del.parse_frames ((k :: ks).map Frame.Bulk) = Except.ok (Del.new (k :: ks)) := by
    intro k ks
    rw [Del.parse_frames]
    show (match Del.parseLoop (ks.map Frame.Bulk) [k] with
      | Except.error e => Except.error e
      | Except.ok keys => Except.ok (Del.mk keys)) = _
    rw [parseLoop_bulk]
    rfl
  have hdec : ∀ K : List String,
      decodeDel (Frame.Bulk "del" :: K.map Frame.Bulk)
        = Del.parse_frames (K.map Frame.Bulk) := by
    intro K
    rw [decodeDel]
    show (if ("del" : String) = "del"
        then Del.parse_frames (K.map Frame.Bulk)
        else Except.error ParseError.Malformed) = _
    rw [if_pos rfl]
  refine ⟨?_, ?_, rfl⟩
  · obtain ⟨k, ks, rfl⟩ := List.exists_cons_of_ne_nil h
    rw [into_frame_eq]
    show decodeDel (Frame.Bulk "del" :: (k :: ks).map Frame.Bulk) = _
    rw [hdec, hparse]
  · show decodeDel (Frame.Bulk "del" :: (["a", "b"] : List String).map Frame.Bulk) = _
    rw [hdec, hparse]

/-- Witness for C1 at the concrete non-empty key list ["x"]. -/
theorem del_roundtrip_witness :
    decodeDel (Frame.elems (Del.into_frame (Del.new ["x"]))) = Except.ok (Del.new ["x"])
    ∧ decodeDel [Frame.Bulk "del", Frame.Bulk "a", Frame.Bulk "b"]
        = Except.ok (Del.new ["a", "b"])
    ∧ Del.into_frame (Del.new ["a", "b"])
        = Frame.Array [Frame.Bulk "del", Frame.Bulk "a", Frame.Bulk "b"] :=
  del_roundtrip ["x"] (by decide)

/-- C2: `apply` invokes the store's deletion primitive once per key in
key-list order (the trace's keys are exactly the command's keys), never
fails apart from the write, and writes an Integer reply equal to the number
of invocations that returned true, a count bounded by the number of keys. -/
theorem del_apply_count (cmd : Del) (db : Db) (w : List Frame) :
    (Del.delTrace cmd.keys db).map Prod.fst = cmd.keys
    ∧ (Del.apply cmd db ⟨w, false⟩).1 = Except.ok ()
    ∧ (Del.apply cmd db ⟨w, false⟩).2.2.written
        = w ++ [Frame.Integer (((Del.delTrace cmd.keys db).filter Prod.snd).length)]
    ∧ ((Del.delTrace cmd.keys db).filter Prod.snd).length ≤ cmd.keys.length := by
  refine ⟨delTrace_map_fst cmd.keys db, rfl, ?_, ?_⟩
  · show (⟨w ++ [Frame.Integer (Del.delLoop cmd.keys db 0).1], false⟩ : Connection).written = _
    rw [delLoop_count]
    rw [Nat.zero_add]
  · have h1 := delLoop_count_le cmd.keys db
    rw [delLoop_count, Nat.zero_add] at h1
    exact h1

/-- C3: decoding an empty argument list fails with `EndOfStream` (the missing
mandatory first key), and every successfully decoded Del command holds at
least one key. -/
theorem del_parse_nonempty (frames : List Frame) (d : Del)
    (h : Del.parse_frames frames = Except.ok d) :
    Del.parse_frames ([] : List Frame) = Except.error ParseError.EndOfStream
    ∧ d.keys ≠ [] := by
  refine ⟨rfl, ?_⟩
  rw [Del.parse_frames] at h
  cases hn : nextString frames with
  | error e => rw [hn] at h; cases h
  | ok pr =>
      obtain ⟨key, rest⟩ := pr
      rw [hn] at h
      change (match Del.parseLoop rest [key] with
        | Except.error e => Except.error e
        | Except.ok keys => Except.ok (Del.mk keys)) = Except.ok d at h
      cases hl : Del.parseLoop rest [key] with
      | error e => rw [hl] at h; cases h
      | ok keys =>
          rw [hl] at h
          obtain ⟨t, ht⟩ := parseLoop_ok_extends rest [key] keys hl
          cases h
          simp [ht]

/-- Witness for C3 at the concrete one-element argument list [Bulk "k"]. -/
theorem del_parse_nonempty_witness :
    Del.parse_frames ([] : List Frame) = Except.error ParseError.EndOfStream
    ∧ (Del.new ["k"]).keys ≠ [] :=
  del_parse_nonempty [Frame.Bulk "k"] (Del.new ["k"]) rfl

/-- C4: an argument list containing a non-string-coercible element, at any
position, makes decode fail with `Malformed` (not `EndOfStream`), discarding
any keys accumulated; whereas exhaustion after at least one key has been read
ends the loop successfully. -/
theorem del_parse_malformed (frames : List Frame) (k : String) (ks : List String)
    (h : ∃ f ∈ frames, coerceString f = none) :
    Del.parse_frames frames = Except.error ParseError.Malformed
    ∧ Del.parse_frames (Frame.Bulk k :: ks.map Frame.Bulk)
        = Except.ok (Del.new (k :: ks)) := by
  refine ⟨parse_frames_malformed frames h, ?_⟩
  rw [Del.parse_frames]
  show (match Del.parseLoop (ks.map Frame.Bulk) [k] with
    | Except.error e => Except.error e
    | Except.ok keys => Except.ok (Del.mk keys)) = _
  rw [parseLoop_bulk]
  rfl

/-- Witness for C4: an Integer element is not string-coercible, so the list
[Integer 7] fails with Malformed, while [Bulk "a"] decodes to keys ["a"]. -/
theorem del_parse_malformed_witness :
    Del.parse_frames [Frame.Integer 7] = Except.error ParseError.Malformed
    ∧ Del.parse_frames (Frame.Bulk "a" :: ([] : List String).map Frame.Bulk)
        = Except.ok (Del.new ["a"]) :=
  del_parse_malformed [Frame.Integer 7] "a" [] ⟨Frame.Integer 7, by simp, rfl⟩

/-- C5: `into_frame` is pure and total, producing an Array Wire Value headed
by the bulk string "del" followed by one bulk string per key, in order. -/
theorem del_into_frame_shape (cmd : Del) :
    Del.into_frame cmd = Frame.Array (Frame.Bulk "del" :: cmd.keys.map Frame.Bulk) :=
  into_frame_eq cmd

/-- C6: duplicate keys are not deduplicated: for store {a:1} and keys
[a, a], the first `db.del` call removes the entry and returns true, the
second is a no-op returning false, and the reply written is Integer(1). -/
theorem del_apply_duplicates :
    Del.apply (Del.new ["a", "a"]) [("a", "1")] ⟨[], false⟩
      = (Except.ok (), ([] : Db), ⟨[Frame.Integer 1], false⟩)
    ∧ Del.delTrace ["a", "a"] [("a", "1")] = [("a", true), ("a", false)] := by
  constructor
  · rfl
  · rfl

/-- C7: execute mutates only entries whose keys appear in the key list —
any entry with a key outside the list is present after exactly when it was
present before — and for store {a:1, b:2} with keys [a, b, c] the reply is
Integer(2), the store ends empty, and the `db.del` calls run in the order
a, b, c with results true, true, false. -/
theorem del_apply_frame_effect (db : Db) (cmd : Del) (k v : String)
    (h : k ∉ cmd.keys) :
    ((k, v) ∈ (Del.apply cmd db ⟨[], false⟩).2.1 ↔ (k, v) ∈ db)
    ∧ Del.apply (Del.new ["a", "b", "c"]) [("a", "1"), ("b", "2")] ⟨[], false⟩
        = (Except.ok (), ([] : Db), ⟨[Frame.Integer 2], false⟩)
    ∧ Del.delTrace ["a", "b", "c"] [("a", "1"), ("b", "2")]
        = [("a", true), ("b", true), ("c", false)] := by
  refine ⟨?_, rfl, rfl⟩
  show (k, v) ∈ (Del.delLoop cmd.keys db 0).2 ↔ (k, v) ∈ db
  rw [mem_delLoop_db]
  exact and_iff_left h

/-- Witness for C7 at store [("z","9")], keys ["a"], k = "z" ∉ ["a"]. -/
theorem del_apply_frame_effect_witness :
    ((("z", "9") ∈ (Del.apply (Del.new ["a"]) [("z", "9")] ⟨[], false⟩).2.1
        ↔ ("z", "9") ∈ ([("z", "9")] : Db)))
    ∧ Del.apply (Del.new ["a", "b", "c"]) [("a", "1"), ("b", "2")] ⟨[], false⟩
        = (Except.ok (), ([] : Db), ⟨[Frame.Integer 2], false⟩)
    ∧ Del.delTrace ["a", "b", "c"] [("a", "1"), ("b", "2")]
        = [("a", true), ("b", true), ("c", false)] :=
  del_apply_frame_effect [("z", "9")] (Del.new ["a"]) "z" "9" (by decide)

/-- C8: if the channel write fails, `apply` propagates the I/O error, the
store mutations already applied stay in place (the post-state store equals
the one a successful run produces), and nothing is written. -/
theorem del_apply_write_failure (cmd : Del) (db : Db) (w : List Frame) :
    (Del.apply cmd db ⟨w, true⟩).1 = Except.error IOErr.ioErr
    ∧ (Del.apply cmd db ⟨w, true⟩).2.1 = (Del.apply cmd db ⟨w, false⟩).2.1
    ∧ (Del.apply cmd db ⟨w, true⟩).2.2.written = w := by
  refine ⟨rfl, rfl, rfl⟩

/-- C9: executing over keys already absent from the store yields the reply
Integer(0) and leaves the store unchanged; in particular re-running any
command on the store produced by a first run (which removed all its keys)
yields Integer(0) and changes nothing — no hidden state between executions. -/
theorem del_apply_absent (cmd : Del) (db : Db) (w : List Frame)
    (h : ∀ k ∈ cmd.keys, db.any (fun p => p.1 == k) = false) :
    Del.apply cmd db ⟨w, false⟩
      = (Except.ok (), db, ⟨w ++ [Frame.Integer 0], false⟩)
    ∧ ∀ db0 : Db,
        Del.apply cmd ((Del.apply cmd db0 ⟨w, false⟩).2.1) ⟨w, false⟩
          = (Except.ok (), (Del.apply cmd db0 ⟨w, false⟩).2.1,
             ⟨w ++ [Frame.Integer 0], false⟩) := by
  refine ⟨apply_of_absent cmd db w h, ?_⟩
  intro db0
  apply apply_of_absent
  intro k hk
  show (Del.delLoop cmd.keys db0 0).2.any (fun p => p.1 == k) = false
  rw [List.any_eq_false]
  rintro ⟨k', v'⟩ hmem
  have hm := (mem_delLoop_db cmd.keys db0 0 k' v').mp hmem
  intro hbeq
  have : k' = k := by simpa using hbeq
  exact hm.2 (this ▸ hk)

/-- Witness for C9 with keys ["x"] and the empty store. -/
theorem del_apply_absent_witness :
    Del.apply (Del.new ["x"]) ([] : Db) ⟨[], false⟩
      = (Except.ok (), ([] : Db), ⟨[Frame.Integer 0], false⟩)
    ∧ ∀ db0 : Db,
        Del.apply (Del.new ["x"]) ((Del.apply (Del.new ["x"]) db0 ⟨[], false⟩).2.1) ⟨[], false⟩
          = (Except.ok (), (Del.apply (Del.new ["x"]) db0 ⟨[], false⟩).2.1,
             ⟨[Frame.Integer 0], false⟩) :=
  del_apply_absent (Del.new ["x"]) ([] : Db) ([] : List Frame) (fun _ _ => rfl)

/-- C10: the direct constructor accepts an empty key list and such a command
is fully operational: apply deletes nothing, leaves the store unchanged and
writes Integer(0); encode produces the one-element array ["del"]. -/
theorem del_empty_keys (db : Db) (w : List Frame) :
    (Del.new []).keys = []
    ∧ Del.apply (Del.new []) db ⟨w, false⟩
        = (Except.ok (), db, ⟨w ++ [Frame.Integer 0], false⟩)
    ∧ Del.into_frame (Del.new []) = Frame.Array [Frame.Bulk "del"] := by
  refine ⟨rfl, rfl, rfl⟩
